import Mathlib

/-!
# Verification of the house-dashboard value-to-color and geometry core

Shallow embedding of the reusable numeric/geometric kernel of the
house-dashboard repository:

* `Colormap` (house-dashboard-common/src/colormap.rs),
* polygon geometry `bounds_of` / `area_of` / `centroid_of` and the region
  projection/normalization pipeline
  (house-dashboard-geographical-heatmap/src/chart.rs),
* the discretized bars `Colorbar` (element/colorbar.rs) and `Loadbar`
  (element/loadbar.rs).

Modelling conventions:

* `f64` values are modelled by the type `F` below: an exact rational, NaN,
  or a signed infinity.  Finite arithmetic is exact (the rounding of `f64`
  operations is not modelled); the special values follow IEEE 754 as far as
  the embedded code exercises them, with the two signed zeros collapsed
  into `0`.
* `i32` values are modelled by `ℤ`; Rust's truncating integer division is
  `Int.tdiv`, and an `i32` division by zero (a Rust panic) is modelled by
  an `Option` result.
* The sRGB ↔ linear-light component transfer functions of the `palette`
  crate involve the real exponent 2.4 and are not rational, so they are
  abstracted as an arbitrary pair of maps (`Transfer`); theorems quantify
  over every such pair, and a claim that needs the round-trip law
  `from_linear (into_linear x) = x` (true of the real pair) takes it as an
  explicit hypothesis.
-/

/-- Truncation toward zero, the semantics of Rust's `f64::trunc` and of the
`as i32` float-to-integer cast (saturation at the `i32` range is not
modelled; all embedded uses stay far inside it). -/
def ftrunc (q : ℚ) : ℤ := if 0 ≤ q then ⌊q⌋ else ⌈q⌉

/-- Model of an `f64` value: NaN, a signed infinity, or a finite rational. -/
inductive F where
  | nan : F
  | inf : F
  | ninf : F
  | fin (q : ℚ) : F
deriving DecidableEq

namespace F

/-- `f64::is_nan` -/
def isNan : F → Bool
  | nan => true
  | _ => false

/-- IEEE `<=`: false whenever an operand is NaN. -/
def ble : F → F → Bool
  | nan, _ => false
  | _, nan => false
  | ninf, _ => true
  | inf, inf => true
  | inf, _ => false
  | fin _, inf => true
  | fin _, ninf => false
  | fin a, fin b => decide (a ≤ b)

/-- IEEE `<`: false whenever an operand is NaN. -/
def blt : F → F → Bool
  | nan, _ => false
  | _, nan => false
  | ninf, ninf => false
  | ninf, _ => true
  | inf, _ => false
  | fin _, inf => true
  | fin _, ninf => false
  | fin a, fin b => decide (a < b)

/-- IEEE negation. -/
def neg : F → F
  | nan => nan
  | inf => ninf
  | ninf => inf
  | fin q => fin (-q)

/-- IEEE addition (signed zeros collapsed). -/
def add : F → F → F
  | nan, _ => nan
  | _, nan => nan
  | inf, ninf => nan
  | ninf, inf => nan
  | inf, _ => inf
  | ninf, _ => ninf
  | _, inf => inf
  | _, ninf => ninf
  | fin a, fin b => fin (a + b)

/-- IEEE subtraction: `x - y = x + (-y)`. -/
def sub (x y : F) : F := add x (neg y)

/-- IEEE multiplication. -/
def mul : F → F → F
  | nan, _ => nan
  | _, nan => nan
  | inf, inf => inf
  | inf, ninf => ninf
  | ninf, inf => ninf
  | ninf, ninf => inf
  | inf, fin b => if b = 0 then nan else if 0 < b then inf else ninf
  | ninf, fin b => if b = 0 then nan else if 0 < b then ninf else inf
  | fin a, inf => if a = 0 then nan else if 0 < a then inf else ninf
  | fin a, ninf => if a = 0 then nan else if 0 < a then ninf else inf
  | fin a, fin b => fin (a * b)

/-- IEEE division (with the zero divisor treated as `+0`, since the
embedding collapses signed zeros): `0/0 = NaN`, `a/0 = ±Inf` for finite
nonzero `a`. -/
def div : F → F → F
  | nan, _ => nan
  | _, nan => nan
  | inf, inf => nan
  | inf, ninf => nan
  | ninf, inf => nan
  | ninf, ninf => nan
  | inf, fin b => if 0 ≤ b then inf else ninf
  | ninf, fin b => if 0 ≤ b then ninf else inf
  | fin _, inf => fin 0
  | fin _, ninf => fin 0
  | fin a, fin b =>
      if b = 0 then
        if a = 0 then nan else if 0 < a then inf else ninf
      else fin (a / b)

end F

/-- The pair of sRGB ↔ linear-light component transfer maps used by the
`palette` crate (`Srgb::into_linear` / `Srgb::from_linear`), abstracted
(see the module docstring). -/
structure Transfer where
  toLin : ℚ → ℚ
  fromLin : ℚ → ℚ

/-- The identity transfer pair, used to instantiate closed witnesses. -/
def idTransfer : Transfer := ⟨id, id⟩

/-- A color with `f64` components, in the linear-light space in which the
`palette` crate interpolates. -/
structure FColor where
  r : F
  g : F
  b : F
deriving DecidableEq

/-- `ColormapType` from colormap.rs. -/
inductive ColormapType where
  | CoolWarm
  | Blues
  | Reds
  | Greens
  | Oranges
  | Violets
  | Grays
  | Status
deriving DecidableEq

/-- `PALETTE_REDS` -/
def PALETTE_REDS : List (ℚ × ℚ × ℚ) :=
  [(255, 245, 240), (254, 224, 210), (252, 187, 161), (252, 146, 114),
   (251, 106, 74), (239, 59, 44), (203, 24, 29), (165, 15, 21), (103, 0, 13)]

/-- `PALETTE_BLUES` -/
def PALETTE_BLUES : List (ℚ × ℚ × ℚ) :=
  [(247, 251, 255), (222, 235, 247), (198, 219, 239), (158, 202, 225),
   (107, 174, 214), (66, 146, 198), (33, 113, 181), (8, 81, 156), (8, 48, 107)]

/-- `PALETTE_GREENS` -/
def PALETTE_GREENS : List (ℚ × ℚ × ℚ) :=
  [(247, 252, 245), (229, 245, 224), (199, 233, 192), (161, 217, 155),
   (116, 196, 118), (65, 171, 93), (35, 139, 69), (0, 109, 44), (0, 68, 27)]

/-- `PALETTE_GRAYS` -/
def PALETTE_GRAYS : List (ℚ × ℚ × ℚ) :=
  [(255, 255, 255), (240, 240, 240), (217, 217, 217), (189, 189, 189),
   (150, 150, 150), (115, 115, 115), (82, 82, 82), (37, 37, 37), (0, 0, 0)]

/-- `PALETTE_ORANGES` -/
def PALETTE_ORANGES : List (ℚ × ℚ × ℚ) :=
  [(255, 245, 235), (254, 230, 206), (253, 208, 162), (253, 174, 107),
   (253, 141, 60), (241, 105, 19), (217, 72, 1), (166, 54, 3), (127, 39, 4)]

/-- `PALETTE_VIOLETS` -/
def PALETTE_VIOLETS : List (ℚ × ℚ × ℚ) :=
  [(252, 251, 253), (239, 237, 245), (218, 218, 235), (188, 189, 220),
   (158, 154, 200), (128, 125, 186), (106, 81, 163), (84, 39, 143), (63, 0, 125)]

/-- `PALETTE_COOLWARM` -/
def PALETTE_COOLWARM : List (ℚ × ℚ × ℚ) :=
  [(5, 48, 97), (33, 102, 172), (5, 113, 176), (67, 147, 195), (103, 169, 207),
   (146, 197, 222), (209, 229, 240), (247, 247, 247), (253, 219, 199),
   (244, 165, 130), (239, 138, 98), (214, 96, 77), (202, 0, 32), (178, 24, 43),
   (103, 0, 31)]

/-- `PALETTE_STATUS` -/
def PALETTE_STATUS : List (ℚ × ℚ × ℚ) := [(77, 175, 74), (255, 255, 51), (228, 26, 28)]

/-- `Colormap` from colormap.rs: the gradient stops (already converted to
linear light), and the two bounds. -/
structure Colormap where
  gradient : List FColor
  min : ℚ
  max : ℚ
deriving DecidableEq

/-- `Colormap::new_with_bounds_and_direction`.  The construction is total:
it returns a colormap for every pair of bounds, including `min == max`. -/
def Colormap.new_with_bounds_and_direction (tr : Transfer)
    (colormap_type : Option ColormapType) (min max : ℚ)
    (reversed : Option Bool) : Colormap :=
  let base_palette : List (ℚ × ℚ × ℚ) :=
    match colormap_type.getD ColormapType.Blues with
    | ColormapType.CoolWarm => PALETTE_COOLWARM
    | ColormapType.Reds => PALETTE_REDS
    | ColormapType.Blues => PALETTE_BLUES
    | ColormapType.Greens => PALETTE_GREENS
    | ColormapType.Oranges => PALETTE_ORANGES
    | ColormapType.Violets => PALETTE_VIOLETS
    | ColormapType.Grays => PALETTE_GRAYS
    | ColormapType.Status => PALETTE_STATUS
  let palette := if reversed = some true then base_palette.reverse else base_palette
  let linear_palette := palette.map fun c =>
    FColor.mk (F.fin (tr.toLin (c.1 / 255)))
      (F.fin (tr.toLin (c.2.1 / 255)))
      (F.fin (tr.toLin (c.2.2 / 255)))
  { gradient := linear_palette, min := min, max := max }

/-- `Colormap::new_with_bounds` (direction left to its default). -/
def Colormap.new_with_bounds (tr : Transfer) (colormap_type : Option ColormapType)
    (min max : ℚ) : Colormap :=
  Colormap.new_with_bounds_and_direction tr colormap_type min max none

/-- The `palette` crate's `clamp` (used by `Mix::mix`): NaN passes through
(both comparisons are false). -/
def clampF (v mn mx : F) : F :=
  if F.blt v mn then mn else if F.blt mx v then mx else v

/-- The `palette` crate's `Mix::mix` on linear RGB:
componentwise `c1 + factor * (c2 - c1)` after clamping `factor` to [0, 1]. -/
def mixF (c1 c2 : FColor) (factor : F) : FColor :=
  let f := clampF factor (F.fin 0) (F.fin 1)
  ⟨F.add c1.r (F.mul f (F.sub c2.r c1.r)),
   F.add c1.g (F.mul f (F.sub c2.g c1.g)),
   F.add c1.b (F.mul f (F.sub c2.b c1.b))⟩

/-- The `palette` crate's `Gradient::get` for a gradient of `n` stops
evenly spaced on [0, 1] (`Gradient::new`): return the first stop when
`t <= 0`, the last when `t >= 1` (IEEE comparisons, so both fail for NaN),
otherwise interpolate inside the segment found by the source's binary
search — in closed form, the greatest `k` with `k/(n-1) < t`.  For a
non-ordered input (NaN) every comparison inside the search is false, so
the search terminates at the last segment `k = n - 2`, and the NaN then
propagates through the mixing factor.  (A `Gradient` is never empty — the
source `expect`s — so the `[]` case below is arbitrary.) -/
def gradientGet (stops : List FColor) (t : F) : FColor :=
  match stops with
  | [] => ⟨F.fin 0, F.fin 0, F.fin 0⟩
  | c :: cs =>
      if F.ble t (F.fin 0) then c
      else
        let n : ℕ := cs.length + 1
        if F.ble (F.fin 1) t then (c :: cs).getD (n - 1) c
        else
          let k : ℕ :=
            match t with
            | F.fin q => (⌈q * ((n : ℚ) - 1)⌉ - 1).toNat
            | _ => n - 2
          let pk : ℚ := (k : ℚ) / ((n : ℚ) - 1)
          let pk1 : ℚ := ((k : ℚ) + 1) / ((n : ℚ) - 1)
          mixF ((c :: cs).getD k c) ((c :: cs).getD (k + 1) c)
            (F.div (F.sub t (F.fin pk)) (F.fin (pk1 - pk)))

/-- The normalized gradient position computed at the top of
`Colormap::get_color_array`: a NaN value falls back to `self.min` — note
that the raw bound is substituted for the **already normalized** position,
not for the value — otherwise `(value - min) / (max - min)`. -/
def Colormap.normalized_position (self : Colormap) (value : F) : F :=
  if value.isNan then F.fin self.min
  else F.div (F.sub value (F.fin self.min)) (F.fin (self.max - self.min))

/-- Componentwise application of `Srgb::from_linear` (NaN and infinities
pass through the transfer untouched). -/
def fromLinF (tr : Transfer) : F → F
  | F.fin q => F.fin (tr.fromLin q)
  | x => x

/-- Float component to `u8` (`into_format::<u8>()` of the `palette`
crate): clamp to [0, 1], scale by 255, round half away from zero. -/
def toByte : F → ℤ
  | F.nan => 0
  | F.inf => 255
  | F.ninf => 0
  | F.fin q => ftrunc (255 * (max 0 (min 1 q)) + 1 / 2)

/-- `Colormap::get_color_array`: map a value to an RGB byte triple.
(`Colormap::get_color` wraps the same bytes in a plotters `RGBColor`.) -/
def Colormap.get_color_array (tr : Transfer) (self : Colormap) (value : F) : ℤ × ℤ × ℤ :=
  let color := gradientGet self.gradient (self.normalized_position value)
  (toByte (fromLinF tr color.r), toByte (fromLinF tr color.g), toByte (fromLinF tr color.b))

-- Polygon geometry (house-dashboard-geographical-heatmap/src/chart.rs).

/-- `elements.iter().chain(elements.first().iter())`: the open polygon
followed by its first point (empty input stays empty). -/
def closed_ring {α : Type} (elements : List (α × α)) : List (α × α) :=
  elements ++ elements.head?.toList

/-- The accumulation loop of `area_of`: the sum of `x1 * y2 - x2 * y1`
where `(x1, y1)` runs over `closed_elements.skip(1)` (the successor point)
and `(x2, y2)` over `elements` (the current point), zipped. -/
def shoelace_sum {α : Type} [CommRing α] (elements : List (α × α)) : α :=
  (((closed_ring elements).drop 1).zip elements).foldl
    (fun area p => area + (p.1.1 * p.2.2 - p.2.1 * p.1.2)) 0

/-- `area_of` at floating point (`f64` instantiation, arithmetic exact):
the accumulated sum divided by 2. -/
def area_of (elements : List (ℚ × ℚ)) : ℚ := shoelace_sum elements / 2

/-- `area_of` at `i32` (the instantiation used by `draw_region` and by the
unit tests), with Rust's truncating integer division by 2. -/
def area_of_int (elements : List (ℤ × ℤ)) : ℤ := (shoelace_sum elements).tdiv 2

/-- Lower bound of `i32`. -/
def i32_min : ℤ := -(2 ^ 31)

/-- Upper bound of `i32`. -/
def i32_max : ℤ := 2 ^ 31 - 1

/-- `i32::saturating_add` -/
def saturating_add (a b : ℤ) : ℤ := max i32_min (min i32_max (a + b))

/-- `i32::saturating_mul` -/
def saturating_mul (a b : ℤ) : ℤ := max i32_min (min i32_max (a * b))

/-- `centroid_of` at `i32` (the instantiation used by `draw_region`): the
accumulations use `saturating_add`/`saturating_mul` as in the source (the
inner `+`, `*`, `-` are exact; debug-mode overflow is not modelled), and
the final `cx / (area * 6)`, `cy / (area * 6)` use Rust's `i32` division,
which panics when the divisor is zero — the panic is modelled by `none`.
There is no zero-area check and no `DegenerateGeometryError` in the
source. -/
def centroid_of_int (elements : List (ℤ × ℤ)) : Option (ℤ × ℤ) :=
  let paired := ((closed_ring elements).drop 1).zip elements
  let cxy := paired.foldl
    (fun acc p =>
      (saturating_add acc.1 (saturating_mul (p.1.1 + p.2.1) (p.1.1 * p.2.2 - p.2.1 * p.1.2)),
       saturating_add acc.2 (saturating_mul (p.1.2 + p.2.2) (p.1.1 * p.2.2 - p.2.1 * p.1.2))))
    (0, 0)
  let area := area_of_int elements
  if area * 6 = 0 then none
  else some (Int.tdiv cxy.1 (area * 6), Int.tdiv cxy.2 (area * 6))

/-- The shoelace value exactly as the specification words it (spec-side
definition, for comparison with `area_of`): close the ring by appending
`points[0]`, sum `x_i * y_{i+1} - x_{i+1} * y_i` over consecutive pairs of
the closed ring — here `(x_i, y_i)` is the current point and
`(x_{i+1}, y_{i+1})` its successor — and divide by 2. -/
def shoelace_spec (points : List (ℚ × ℚ)) : ℚ :=
  (((closed_ring points).zip ((closed_ring points).drop 1)).foldl
    (fun s p => s + (p.1.1 * p.2.2 - p.2.1 * p.1.2)) 0) / 2

-- Region projection and normalization
-- (house-dashboard-geographical-heatmap/src/chart.rs).

/-- `f64::MAX` exactly: `(2^53 - 1) * 2^971`. -/
def f64_max : ℚ := (2 ^ 53 - 1) * 2 ^ 971

/-- `f64::MIN` exactly: `-f64::MAX`. -/
def f64_min : ℚ := -f64_max

/-- `bounds_of`: a single scan tracking the running minimum and maximum,
seeded with the type's extreme values (`T::max_value()` for the minimum,
`T::min_value()` for the maximum) and returning `(min, max)`. -/
def bounds_of (elements : List ℚ) : ℚ × ℚ :=
  elements.foldl
    (fun mm element =>
      (if element < mm.1 then element else mm.1,
       if element > mm.2 then element else mm.2))
    (f64_max, f64_min)

/-- `compute_all_regions_bounds`: combine the per-region `bounds_of` of the
x- and y-components into a single shared bounding box
`(min_x, max_x, min_y, max_y)`.  (The source iterates a `HashMap`'s values;
the iteration order does not affect the running min/max, and the embedding
uses an association list.) -/
def compute_all_regions_bounds (regions : List (String × List (ℚ × ℚ))) : ℚ × ℚ × ℚ × ℚ :=
  regions.foldl
    (fun acc region =>
      (min acc.1 (bounds_of (region.2.map Prod.fst)).1,
       max acc.2.1 (bounds_of (region.2.map Prod.fst)).2,
       min acc.2.2.1 (bounds_of (region.2.map Prod.snd)).1,
       max acc.2.2.2 (bounds_of (region.2.map Prod.snd)).2))
    (f64_max, f64_min, f64_max, f64_min)

/-- The per-point map inside `normalize_regions`. -/
def normalize_point (left_margin top_margin slack_x slack_y min_x min_y r : ℚ)
    (p : ℚ × ℚ) : ℚ × ℚ :=
  (left_margin + slack_x / 2 + ((p.1 - min_x) * r),
   top_margin + slack_y / 2 + ((p.2 - min_y) * r))

/-- `normalize_regions`: fit all regions into the canvas with one uniform
scale.  (Valid as an exact-arithmetic model only while the divisions are
by nonzero spans, i.e. for bounding boxes with `dx ≠ 0` and `dy ≠ 0` —
the hypotheses of the claim.) -/
def normalize_regions (regions : List (String × List (ℚ × ℚ)))
    (wh : ℚ × ℚ) (tb : ℚ × ℚ) (lr : ℚ × ℚ) : List (String × List (ℚ × ℚ)) :=
  let bounds := compute_all_regions_bounds regions
  let effective_width := wh.1 - lr.1 - lr.2
  let effective_height := wh.2 - tb.1 - tb.2
  let dx := bounds.2.1 - bounds.1
  let dy := bounds.2.2.2 - bounds.2.2.1
  let ratio_x := effective_width / dx
  let ratio_y := effective_height / dy
  let r := min ratio_x ratio_y
  let slack_x := effective_width - dx * r
  let slack_y := effective_height - dy * r
  regions.map fun region =>
    (region.1,
     region.2.map (normalize_point lr.1 tb.1 slack_x slack_y bounds.1 bounds.2.2.1 r))

/-- All coordinate pairs of all regions. -/
def all_points (regions : List (String × List (ℚ × ℚ))) : List (ℚ × ℚ) :=
  (regions.map Prod.snd).flatten

/-- `project`: fixed linear transform by three basis vectors plus an
origin offset. -/
def project (point big_x big_y big_z origin : ℚ × ℚ × ℚ) : ℚ × ℚ × ℚ :=
  (big_x.1 * point.1 + big_y.1 * point.2.1 + big_z.1 * point.2.2 + origin.1,
   big_x.2.1 * point.1 + big_y.2.1 * point.2.1 + big_z.2.1 * point.2.2 + origin.2.1,
   big_x.2.2 * point.1 + big_y.2.2 * point.2.1 + big_z.2.2 * point.2.2 + origin.2.2)

/-- The exact value of `2.0_f64.sqrt()`: the `f64` nearest to √2. -/
def sqrt_two_f64 : ℚ := 6369051672525773 / 4503599627370496

/-- `project_with_two_to_one_isometry`: the 2-to-1 oblique projection. -/
def project_with_two_to_one_isometry (x y z : ℚ) : ℚ × ℚ × ℚ :=
  let size : ℚ := 1 / 2
  let origin_x : ℚ := 0
  let origin_y : ℚ := 0
  let origin_z : ℚ := 0
  let big_x_x := size * 1
  let big_x_y := size * (1 / 2)
  let big_x_z := size * (-1 / (2 * sqrt_two_f64))
  let big_y_x := size * (-1)
  let big_y_y := size * (1 / 2)
  let big_y_z := size * (-1 / (2 * sqrt_two_f64))
  let big_z_x := size * 0
  let big_z_y := size * 1
  let big_z_z := size * (-1 / (2 * sqrt_two_f64))
  project (x, y, z) (big_x_x, big_x_y, big_x_z) (big_y_x, big_y_y, big_y_z)
    (big_z_x, big_z_y, big_z_z) (origin_x, origin_y, origin_z)

/-- Two concrete regions whose union bounding box is 200 × 100. -/
def demo_regions : List (String × List (ℚ × ℚ)) :=
  [("a", [(0, 0), (200, 0)]), ("b", [(0, 100)])]

-- Discretized bars (element/colorbar.rs, element/loadbar.rs).

/-- `Colorbar` (the unit string, font, system palette and colormap fields
only affect the label text and the fill colors, not the emitted geometry,
and are omitted from the embedding). -/
structure Colorbar where
  position : ℤ × ℤ
  size : ℤ × ℤ
  bounds : ℚ × ℚ
  precision : ℕ
  n : ℤ

/-- `Colorbar::new`: the step count `n` is fixed to 61. -/
def Colorbar.new (position size : ℤ × ℤ) (bounds : ℚ × ℚ) (precision : ℕ) : Colorbar :=
  { position := position, size := size, bounds := bounds, precision := precision, n := 61 }

/-- The band start offset `trunc(i * (dimension / n))` appearing in the
corner arithmetic of both `Colorbar::draw` and `Loadbar::draw`. -/
def band_offset (h n : ℤ) (i : ℕ) : ℤ := ftrunc ((i : ℚ) * ((h : ℚ) / (n : ℚ)))

/-- The filled band rectangles emitted by the loop of `Colorbar::draw`, as
`(upper_left, bottom_right)` corner pairs in loop order
(`step = height / n`): band `i` spans vertically from
`position.1 + trunc(i·step)` to `position.1 + trunc((i+1)·step) + 1`.
The surrounding border rectangle (drawn unfilled) and the text labels are
not part of this list. -/
def Colorbar.draw_rects (self : Colorbar) : List ((ℤ × ℤ) × (ℤ × ℤ)) :=
  let height := self.size.2
  let step : ℚ := (height : ℚ) / ((self.n : ℤ) : ℚ)
  (List.range self.n.toNat).map fun i : ℕ =>
    ((self.position.1, self.position.2 + ftrunc ((i : ℚ) * step)),
     (self.position.1 + self.size.1 + 1,
      self.position.2 + ftrunc (((i : ℚ) + 1) * step) + 1))

/-- `Loadbar` (the system palette and colormap references are omitted:
they only affect colors). -/
structure Loadbar where
  position : ℤ × ℤ
  size : ℤ × ℤ
  max : ℚ
  value : ℚ
  n : ℤ

/-- `Loadbar::new`: the step count `n` is fixed to 61. -/
def Loadbar.new (position size : ℤ × ℤ) (max value : ℚ) : Loadbar :=
  { position := position, size := size, max := max, value := value, n := 61 }

/-- `last` in `Loadbar::draw`: `((n * value) / max).trunc() as i32`. -/
def Loadbar.last (self : Loadbar) : ℤ :=
  ftrunc (((self.n : ℤ) : ℚ) * self.value / self.max)

/-- The indices of the bands actually drawn by `Loadbar::draw`: the loop
runs `i` in `0..n` and `break`s at the first `i >= last`. -/
def Loadbar.drawn_indices (self : Loadbar) : List ℕ :=
  (List.range self.n.toNat).takeWhile fun i : ℕ => decide ((i : ℤ) < self.last)

/-- The filled band rectangles emitted by `Loadbar::draw` when the element
is positioned at `(x, y)` (`step = width / n`): band `i` spans
horizontally from `x - size.0/2 + trunc(i·step)` to
`x - size.0/2 + trunc((i+1)·step)`, over the full bar height.  The border
rectangle (drawn unfilled) is not part of this list. -/
def Loadbar.draw_rects (self : Loadbar) (x y : ℤ) : List ((ℤ × ℤ) × (ℤ × ℤ)) :=
  let width := self.size.1
  let step : ℚ := (width : ℚ) / ((self.n : ℤ) : ℚ)
  self.drawn_indices.map fun i : ℕ =>
    ((x - Int.tdiv self.size.1 2 + ftrunc ((i : ℚ) * step), y - Int.tdiv self.size.2 2),
     (x - Int.tdiv self.size.1 2 + ftrunc (((i : ℚ) + 1) * step), y + Int.tdiv self.size.2 2))


-- Basic facts about the constructor and the gradient boundary branches.

theorem Colormap.new_min (tr : Transfer) (ct : Option ColormapType) (mn mx : ℚ)
    (rev : Option Bool) :
    (Colormap.new_with_bounds_and_direction tr ct mn mx rev).min = mn := rfl

theorem Colormap.new_max (tr : Transfer) (ct : Option ColormapType) (mn mx : ℚ)
    (rev : Option Bool) :
    (Colormap.new_with_bounds_and_direction tr ct mn mx rev).max = mx := rfl

theorem gradientGet_first (c : FColor) (cs : List FColor) (t : F)
    (ht : F.ble t (F.fin 0) = true) : gradientGet (c :: cs) t = c := by
  simp [gradientGet, ht]

theorem gradientGet_last (c : FColor) (cs : List FColor) (t : F)
    (ht0 : F.ble t (F.fin 0) = false) (ht1 : F.ble (F.fin 1) t = true) :
    gradientGet (c :: cs) t = (c :: cs).getD cs.length c := by
  simp [gradientGet, ht0, ht1]

-- Shared branch-agreement lemmas for the gradient boundary cases.

theorem gradientGet_eq_of_le_zero (stops : List FColor) (t1 t2 : F)
    (h1 : F.ble t1 (F.fin 0) = true) (h2 : F.ble t2 (F.fin 0) = true) :
    gradientGet stops t1 = gradientGet stops t2 := by
  cases stops with
  | nil => rfl
  | cons c cs => rw [gradientGet_first c cs t1 h1, gradientGet_first c cs t2 h2]

theorem gradientGet_eq_of_ge_one (stops : List FColor) (t1 t2 : F)
    (h10 : F.ble t1 (F.fin 0) = false) (h11 : F.ble (F.fin 1) t1 = true)
    (h20 : F.ble t2 (F.fin 0) = false) (h21 : F.ble (F.fin 1) t2 = true) :
    gradientGet stops t1 = gradientGet stops t2 := by
  cases stops with
  | nil => rfl
  | cons c cs => rw [gradientGet_last c cs t1 h10 h11, gradientGet_last c cs t2 h20 h21]

theorem normalized_position_fin (cm : Colormap) (w : ℚ) (hne : cm.max - cm.min ≠ 0) :
    cm.normalized_position (F.fin w) = F.fin ((w - cm.min) / (cm.max - cm.min)) := by
  have hne' : cm.max + -cm.min ≠ 0 := by
    rw [← sub_eq_add_neg]
    exact hne
  simp [Colormap.normalized_position, F.isNan, F.sub, F.neg, F.add, F.div, hne',
    sub_eq_add_neg]

/-- C8: for every colormap with `min < max`, `get_color_array` clamps the
normalized position: any finite value below `min` is mapped to the color
of `min`, and any finite value above `max` to the color of `max`
(so `get_color(min - 100) = get_color(min)` and
`get_color(max + 100) = get_color(max)`). -/
theorem colormap_clamps_out_of_range (tr : Transfer) (cm : Colormap) (v : ℚ)
    (hlt : cm.min < cm.max) :
    (v < cm.min →
      cm.get_color_array tr (F.fin v) = cm.get_color_array tr (F.fin cm.min)) ∧
    (cm.max < v →
      cm.get_color_array tr (F.fin v) = cm.get_color_array tr (F.fin cm.max)) := by
  have hd : (0 : ℚ) < cm.max - cm.min := by linarith
  have hne : cm.max - cm.min ≠ 0 := ne_of_gt hd
  constructor
  · intro hv
    have hvpos : cm.normalized_position (F.fin v)
        = F.fin ((v - cm.min) / (cm.max - cm.min)) := normalized_position_fin cm v hne
    have hmpos : cm.normalized_position (F.fin cm.min)
        = F.fin ((cm.min - cm.min) / (cm.max - cm.min)) := normalized_position_fin cm cm.min hne
    have htv : (v - cm.min) / (cm.max - cm.min) ≤ 0 :=
      div_nonpos_of_nonpos_of_nonneg (by linarith) hd.le
    have htm : (cm.min - cm.min) / (cm.max - cm.min) ≤ 0 := by
      simp
    have hcolor : gradientGet cm.gradient (cm.normalized_position (F.fin v))
        = gradientGet cm.gradient (cm.normalized_position (F.fin cm.min)) := by
      rw [hvpos, hmpos]
      exact gradientGet_eq_of_le_zero _ _ _ (by simp [F.ble, htv]) (by simp [F.ble, htm])
    simp only [Colormap.get_color_array, hcolor]
  · intro hv
    have hvpos : cm.normalized_position (F.fin v)
        = F.fin ((v - cm.min) / (cm.max - cm.min)) := normalized_position_fin cm v hne
    have hmpos : cm.normalized_position (F.fin cm.max)
        = F.fin ((cm.max - cm.min) / (cm.max - cm.min)) := normalized_position_fin cm cm.max hne
    have htv : (1 : ℚ) ≤ (v - cm.min) / (cm.max - cm.min) :=
      le_of_lt ((one_lt_div hd).mpr (by linarith))
    have htm : (cm.max - cm.min) / (cm.max - cm.min) = 1 := div_self hne
    have hcolor : gradientGet cm.gradient (cm.normalized_position (F.fin v))
        = gradientGet cm.gradient (cm.normalized_position (F.fin cm.max)) := by
      rw [hvpos, hmpos, htm]
      refine gradientGet_eq_of_ge_one _ _ _ ?_ ?_ ?_ ?_
      · simp only [F.ble, decide_eq_false_iff_not, not_le]
        linarith
      · simp only [F.ble, decide_eq_true_eq]
        exact htv
      · simp only [F.ble, decide_eq_false_iff_not, not_le]
        norm_num
      · simp [F.ble]
    simp only [Colormap.get_color_array, hcolor]

/-- Closed instance of `colormap_clamps_out_of_range` on the Blues colormap
with bounds (0, 1), at the values `min - 100` and `max + 100`. -/
theorem colormap_clamps_out_of_range_witness :
    ((Colormap.new_with_bounds_and_direction idTransfer none 0 1 none).min
        < (Colormap.new_with_bounds_and_direction idTransfer none 0 1 none).max) ∧
    (Colormap.new_with_bounds_and_direction idTransfer none 0 1 none).get_color_array
        idTransfer (F.fin (-100))
      = (Colormap.new_with_bounds_and_direction idTransfer none 0 1 none).get_color_array
        idTransfer (F.fin 0) ∧
    (Colormap.new_with_bounds_and_direction idTransfer none 0 1 none).get_color_array
        idTransfer (F.fin 101)
      = (Colormap.new_with_bounds_and_direction idTransfer none 0 1 none).get_color_array
        idTransfer (F.fin 1) := by
  have hlt : (Colormap.new_with_bounds_and_direction idTransfer none 0 1 none).min
      < (Colormap.new_with_bounds_and_direction idTransfer none 0 1 none).max := by
    rw [Colormap.new_min, Colormap.new_max]
    norm_num
  refine ⟨hlt, ?_, ?_⟩
  · have h := (colormap_clamps_out_of_range idTransfer
      (Colormap.new_with_bounds_and_direction idTransfer none 0 1 none) (-100) hlt).1
    rw [Colormap.new_min] at h
    exact h (by norm_num)
  · have h := (colormap_clamps_out_of_range idTransfer
      (Colormap.new_with_bounds_and_direction idTransfer none 0 1 none) 101 hlt).2
    rw [Colormap.new_max] at h
    exact h (by norm_num)

/-- C10: when the palette selector is `None`, `new_with_bounds_and_direction`
builds the colormap from the Blues palette: for every `min < max` and every
direction flag the result equals the colormap built with `Some Blues` and
the same bounds and direction. -/
theorem colormap_default_palette_is_blues (tr : Transfer) (mn mx : ℚ)
    (rev : Option Bool) (hlt : mn < mx) :
    Colormap.new_with_bounds_and_direction tr none mn mx rev
      = Colormap.new_with_bounds_and_direction tr (some ColormapType.Blues) mn mx rev := rfl

/-- Closed instance of `colormap_default_palette_is_blues` at bounds (0, 1). -/
theorem colormap_default_palette_is_blues_witness :
    (0 : ℚ) < 1 ∧
      Colormap.new_with_bounds_and_direction idTransfer none 0 1 none
        = Colormap.new_with_bounds_and_direction idTransfer (some ColormapType.Blues) 0 1 none :=
  ⟨by norm_num, colormap_default_palette_is_blues idTransfer 0 1 none (by norm_num)⟩


/-- C1 (refuting evaluation): the NaN branch of `get_color_array` feeds
`self.min` to the gradient as the **already normalized** position instead
of normalizing it to `t = 0`.  For the Blues colormap with bounds
(15, 25), a NaN value therefore lands at gradient position 15 ≥ 1 and
produces the LAST palette stop (8, 48, 107) — the "warmest" color — while
`get_color(min)` produces the first stop (247, 251, 255).  (The two agree
only when `min ≤ 0`, where the gradient clamps both positions to the first
stop.) -/
theorem colormap_nan_maps_to_raw_min_position (tr : Transfer)
    (hrt : ∀ q : ℚ, tr.fromLin (tr.toLin q) = q) :
    Colormap.get_color_array tr
        (Colormap.new_with_bounds_and_direction tr none 15 25 none) F.nan
      = (8, 48, 107) ∧
    Colormap.get_color_array tr
        (Colormap.new_with_bounds_and_direction tr none 15 25 none) (F.fin 15)
      = (247, 251, 255) := by
  have hby : ∀ q : ℚ, toByte (fromLinF tr (F.fin (tr.toLin q)))
      = ftrunc (255 * (max 0 (min 1 q)) + 1 / 2) := by
    intro q
    simp only [fromLinF, hrt, toByte]
  have hg : (Colormap.new_with_bounds_and_direction tr none 15 25 none).gradient
      = PALETTE_BLUES.map (fun c => FColor.mk (F.fin (tr.toLin (c.1 / 255)))
          (F.fin (tr.toLin (c.2.1 / 255))) (F.fin (tr.toLin (c.2.2 / 255)))) := rfl
  constructor
  · have hpos : (Colormap.new_with_bounds_and_direction tr none 15 25 none).normalized_position
        F.nan = F.fin 15 := rfl
    rw [Colormap.get_color_array, hpos, hg]
    simp only [PALETTE_BLUES, List.map_cons, List.map_nil]
    rw [gradientGet_last _ _ _ (by norm_num [F.ble]) (by norm_num [F.ble])]
    simp only [List.length_cons, List.length_nil, List.getD_eq_getElem?_getD,
      List.getElem?_cons_succ, List.getElem?_cons_zero, Option.getD_some]
    rw [hby, hby, hby]
    norm_num [ftrunc, min_def, max_def]
  · have hne : (Colormap.new_with_bounds_and_direction tr none 15 25 none).max
        - (Colormap.new_with_bounds_and_direction tr none 15 25 none).min ≠ 0 := by
      rw [Colormap.new_min, Colormap.new_max]
      norm_num
    have hpos := normalized_position_fin
      (Colormap.new_with_bounds_and_direction tr none 15 25 none) 15 hne
    rw [Colormap.new_min, Colormap.new_max] at hpos
    norm_num at hpos
    rw [Colormap.get_color_array, hpos, hg]
    simp only [PALETTE_BLUES, List.map_cons, List.map_nil]
    rw [gradientGet_first _ _ _ (by norm_num [F.ble])]
    rw [hby, hby, hby]
    norm_num [ftrunc, min_def, max_def]

/-- Closed instance of `colormap_nan_maps_to_raw_min_position` with the
identity transfer pair (which satisfies the round-trip law). -/
theorem colormap_nan_maps_to_raw_min_position_witness :
    Colormap.get_color_array idTransfer
        (Colormap.new_with_bounds_and_direction idTransfer none 15 25 none) F.nan
      = (8, 48, 107) ∧
    Colormap.get_color_array idTransfer
        (Colormap.new_with_bounds_and_direction idTransfer none 15 25 none) (F.fin 15)
      = (247, 251, 255) :=
  colormap_nan_maps_to_raw_min_position idTransfer (fun _ => rfl)

/-- C4 (counterexample): constructing a colormap with equal bounds
`min = max = 1` does **not** fail — the constructor is total and there is
no `InvalidBoundsError` anywhere in the source — and the returned colormap
computes the division-by-zero `0/0 = NaN` as the normalized gradient
position of the value `1`. -/
theorem colormap_equal_bounds_counterexample :
    (Colormap.new_with_bounds_and_direction idTransfer none 1 1 none).min = 1 ∧
    (Colormap.new_with_bounds_and_direction idTransfer none 1 1 none).max = 1 ∧
    (Colormap.new_with_bounds_and_direction idTransfer none 1 1 none).normalized_position
        (F.fin 1) = F.nan := by
  refine ⟨rfl, rfl, ?_⟩
  simp only [Colormap.normalized_position, F.isNan, Colormap.new_min, Colormap.new_max,
    F.sub, F.neg, F.add, F.div]
  norm_num

/-- C4 (amended): `new_with_bounds_and_direction` never fails for any
bounds: for every transfer pair, palette selector, bound `min = max` and
direction it returns a colormap carrying those bounds, and `get_color` on
that colormap then computes a division by zero: the normalized position of
the value `min` itself is `0/0 = NaN`, and of any other finite value
`±Inf`. -/
theorem colormap_equal_bounds_total_position (tr : Transfer)
    (ct : Option ColormapType) (mn : ℚ) (rev : Option Bool) (v : ℚ) :
    (Colormap.new_with_bounds_and_direction tr ct mn mn rev).min = mn ∧
    (Colormap.new_with_bounds_and_direction tr ct mn mn rev).max = mn ∧
    (Colormap.new_with_bounds_and_direction tr ct mn mn rev).normalized_position (F.fin v)
      = (if v = mn then F.nan else if mn < v then F.inf else F.ninf) := by
  refine ⟨rfl, rfl, ?_⟩
  simp only [Colormap.normalized_position, F.isNan, Colormap.new_min, Colormap.new_max,
    F.sub, F.neg, F.add, F.div, sub_self, eq_self_iff_true, if_true,
    Bool.false_eq_true, if_false]
  rw [show v + -mn = v - mn from (sub_eq_add_neg v mn).symm]
  by_cases hv : v = mn
  · rw [if_pos (by rw [hv, sub_self]), if_pos hv]
  · rw [if_neg (sub_ne_zero.mpr hv), if_neg hv]
    by_cases hlt : mn < v
    · rw [if_pos (sub_pos.mpr hlt), if_pos hlt]
    · rw [if_neg (fun h => hlt (sub_pos.mp h)), if_neg hlt]

-- Fold-to-sum helpers.

theorem foldl_add_eq_sum {α M : Type} [AddCommMonoid M] (g : α → M) (l : List α) (init : M) :
    l.foldl (fun s x => s + g x) init = init + (l.map g).sum := by
  induction l generalizing init with
  | nil => simp
  | cons a t ih => simp [ih, add_assoc]

theorem sum_map_neg {α M : Type} [SubtractionCommMonoid M] (g : α → M) (l : List α) :
    (l.map fun x => -g x).sum = -(l.map g).sum := by
  induction l with
  | nil => simp
  | cons a t ih => simp [ih, neg_add, add_comm]

/-- C2 (counterexample): the unit square traversed counter-clockwise in a
y-up frame.  The specification's shoelace value is `+1`, but `area_of`
returns `-1`: the source zips the shifted ring as the FIRST component of
each pair, so each term is `x_{i+1}·y_i - x_i·y_{i+1}`, the negation of
the claimed summand, and positive sign means clockwise, not
counter-clockwise. -/
theorem area_of_winding_counterexample :
    area_of [(0, 0), (1, 0), (1, 1), (0, 1)] = -1 ∧
    shoelace_spec [(0, 0), (1, 0), (1, 1), (0, 1)] = 1 := by
  constructor <;> norm_num [area_of, shoelace_spec, shoelace_sum, closed_ring]

/-- C2 (amended): for every non-empty open point sequence, `area_of`
equals the **negated** shoelace value of the specification: it sums
`x_{i+1}·y_i - x_i·y_{i+1}` over consecutive pairs of the closed ring and
divides by 2, so its sign is positive exactly when the vertices are
clockwise in a standard y-up frame (counter-clockwise in the y-down screen
frame). -/
theorem area_of_eq_neg_shoelace_spec (points : List (ℚ × ℚ)) (hne : points ≠ []) :
    area_of points = -shoelace_spec points := by
  obtain ⟨hd, tl, rfl⟩ := List.exists_cons_of_ne_nil hne
  have hring : closed_ring (hd :: tl) = (hd :: tl) ++ [hd] := by
    simp [closed_ring]
  have hA : (closed_ring (hd :: tl)).drop 1 = tl ++ [hd] := by
    rw [hring]
    simp
  have hzip1 : (closed_ring (hd :: tl)).zip ((closed_ring (hd :: tl)).drop 1)
      = (hd :: tl).zip (tl ++ [hd]) := by
    calc (closed_ring (hd :: tl)).zip ((closed_ring (hd :: tl)).drop 1)
        = ((hd :: tl) ++ [hd]).zip ((tl ++ [hd]) ++ []) := by
          rw [hA, hring]
          simp
      _ = (hd :: tl).zip (tl ++ [hd]) ++ ([hd].zip ([] : List (ℚ × ℚ))) :=
          List.zip_append (by simp)
      _ = (hd :: tl).zip (tl ++ [hd]) := by simp
  have hzip2 : ((closed_ring (hd :: tl)).drop 1).zip (hd :: tl)
      = ((hd :: tl).zip (tl ++ [hd])).map Prod.swap := by
    rw [hA, List.zip_swap]
  rw [area_of, shoelace_sum, shoelace_spec, hzip1, hzip2]
  rw [List.foldl_map, foldl_add_eq_sum, foldl_add_eq_sum]
  rw [show (fun pr : (ℚ × ℚ) × (ℚ × ℚ) =>
        (Prod.swap pr).1.1 * (Prod.swap pr).2.2 - (Prod.swap pr).2.1 * (Prod.swap pr).1.2)
      = (fun pr : (ℚ × ℚ) × (ℚ × ℚ) => -(pr.1.1 * pr.2.2 - pr.2.1 * pr.1.2)) from by
    funext pr
    simp [Prod.swap]]
  rw [sum_map_neg]
  ring

/-- Closed instance of `area_of_eq_neg_shoelace_spec` on the triangle from
the source's unit tests. -/
theorem area_of_eq_neg_shoelace_spec_witness :
    ([((0 : ℚ), (0 : ℚ)), (1, 1), (2, 0)] ≠ []) ∧
    area_of [((0 : ℚ), (0 : ℚ)), (1, 1), (2, 0)]
      = -shoelace_spec [((0 : ℚ), (0 : ℚ)), (1, 1), (2, 0)] :=
  ⟨by simp, area_of_eq_neg_shoelace_spec _ (by simp)⟩

/-- C3 (counterexample): the two-point (zero-area) polygon `[(0,0),(1,1)]`.
`centroid_of` does not detect `area == 0` and does not fail with a
`DegenerateGeometryError` (no such type exists anywhere in the source): it
reaches the division `cx / (area * 6)` with divisor zero, an `i32`
division-by-zero panic at the instantiation used by `draw_region`
(modelled by `none`). -/
theorem centroid_zero_area_counterexample :
    area_of_int [(0, 0), (1, 1)] = 0 ∧ centroid_of_int [(0, 0), (1, 1)] = none := by
  constructor <;> decide

/-- C3 (amended): `centroid_of` performs no zero-area check: for every
point sequence whose signed area is zero, the final division divides by
zero, which at the `i32` instantiation used by the renderer is a panic
(embedded as `none`) — not an explicit `DegenerateGeometryError`. -/
theorem centroid_of_zero_area_divides_by_zero (elements : List (ℤ × ℤ))
    (h : area_of_int elements = 0) : centroid_of_int elements = none := by
  simp [centroid_of_int, h]

/-- Closed instance of `centroid_of_zero_area_divides_by_zero` on the
degenerate polygon `[(0,0),(1,1)]`. -/
theorem centroid_of_zero_area_divides_by_zero_witness :
    area_of_int [(0, 0), (1, 1)] = 0 ∧ centroid_of_int [(0, 0), (1, 1)] = none :=
  ⟨by decide, centroid_of_zero_area_divides_by_zero _ (by decide)⟩

-- Folding lemmas used to characterize the computed bounds.

theorem foldl_pair_split {α : Type} (f g : ℚ → α → ℚ) (l : List α) (a b : ℚ) :
    l.foldl (fun p e => (f p.1 e, g p.2 e)) (a, b) = (l.foldl f a, l.foldl g b) := by
  induction l generalizing a b with
  | nil => rfl
  | cons x xs ih => simp [List.foldl_cons, ih]

theorem foldl_quad_split {α : Type} (f1 f2 f3 f4 : ℚ → α → ℚ) (l : List α) (a b c d : ℚ) :
    l.foldl (fun acc e => (f1 acc.1 e, f2 acc.2.1 e, f3 acc.2.2.1 e, f4 acc.2.2.2 e))
        (a, b, c, d)
      = (l.foldl f1 a, l.foldl f2 b, l.foldl f3 c, l.foldl f4 d) := by
  induction l generalizing a b c d with
  | nil => rfl
  | cons x xs ih => simp [List.foldl_cons, ih]

theorem bounds_of_eq (l : List ℚ) :
    bounds_of l = (l.foldl min f64_max, l.foldl max f64_min) := by
  unfold bounds_of
  rw [show (fun (mm : ℚ × ℚ) element =>
        ((if element < mm.1 then element else mm.1 : ℚ),
         (if element > mm.2 then element else mm.2 : ℚ)))
      = (fun (mm : ℚ × ℚ) element => (min mm.1 element, max mm.2 element)) from by
    funext mm e
    refine Prod.ext ?_ ?_
    · dsimp only
      rcases lt_or_ge e mm.1 with h | h
      · rw [if_pos h, min_eq_right h.le]
      · rw [if_neg (not_lt.mpr h), min_eq_left h]
    · dsimp only
      rcases lt_or_ge mm.2 e with h | h
      · rw [if_pos h, max_eq_right h.le]
      · rw [if_neg (not_lt.mpr h), max_eq_left h]]
  exact foldl_pair_split _ _ l f64_max f64_min

theorem foldl_min_le_init (l : List ℚ) (a : ℚ) : l.foldl min a ≤ a := by
  induction l generalizing a with
  | nil => simp
  | cons x xs ih => exact (ih (min a x)).trans (min_le_left a x)

theorem foldl_min_le_mem (l : List ℚ) (a : ℚ) : ∀ x ∈ l, l.foldl min a ≤ x := by
  induction l generalizing a with
  | nil =>
    intro x hx
    simp at hx
  | cons y ys ih =>
    intro x hx
    rcases List.mem_cons.mp hx with rfl | hx
    · exact (foldl_min_le_init ys (min a x)).trans (min_le_right a x)
    · exact ih (min a y) x hx

theorem foldl_min_mem (l : List ℚ) (a : ℚ) : l.foldl min a = a ∨ l.foldl min a ∈ l := by
  induction l generalizing a with
  | nil => exact Or.inl rfl
  | cons x xs ih =>
    rcases ih (min a x) with h | h
    · rcases le_or_lt a x with hax | hax
      · exact Or.inl (by rw [List.foldl_cons, h, min_eq_left hax])
      · exact Or.inr (by rw [List.foldl_cons, h, min_eq_right hax.le]; exact List.mem_cons_self x xs)
    · exact Or.inr (List.mem_cons_of_mem x h)

theorem foldl_min_init_min (l : List ℚ) (a b : ℚ) :
    l.foldl min (min a b) = min a (l.foldl min b) := by
  induction l generalizing b with
  | nil => rfl
  | cons x xs ih =>
    simp only [List.foldl_cons]
    rw [min_assoc, ih]

theorem foldl_max_ge_init (l : List ℚ) (a : ℚ) : a ≤ l.foldl max a := by
  induction l generalizing a with
  | nil => simp
  | cons x xs ih => exact (le_max_left a x).trans (ih (max a x))

theorem foldl_max_ge_mem (l : List ℚ) (a : ℚ) : ∀ x ∈ l, x ≤ l.foldl max a := by
  induction l generalizing a with
  | nil =>
    intro x hx
    simp at hx
  | cons y ys ih =>
    intro x hx
    rcases List.mem_cons.mp hx with rfl | hx
    · exact (le_max_right a x).trans (foldl_max_ge_init ys (max a x))
    · exact ih (max a y) x hx

theorem foldl_max_mem (l : List ℚ) (a : ℚ) : l.foldl max a = a ∨ l.foldl max a ∈ l := by
  induction l generalizing a with
  | nil => exact Or.inl rfl
  | cons x xs ih =>
    rcases ih (max a x) with h | h
    · rcases le_or_lt x a with hax | hax
      · exact Or.inl (by rw [List.foldl_cons, h, max_eq_left hax])
      · exact Or.inr (by rw [List.foldl_cons, h, max_eq_right hax.le]; exact List.mem_cons_self x xs)
    · exact Or.inr (List.mem_cons_of_mem x h)

theorem foldl_max_init_max (l : List ℚ) (a b : ℚ) :
    l.foldl max (max a b) = max a (l.foldl max b) := by
  induction l generalizing b with
  | nil => rfl
  | cons x xs ih =>
    simp only [List.foldl_cons]
    rw [max_assoc, ih]

theorem foldl_regions_min {α : Type} (proj : α → List ℚ)
    (regions : List α) (a : ℚ) (ha : a ≤ f64_max) :
    regions.foldl (fun m r => min m ((proj r).foldl min f64_max)) a
      = regions.foldl (fun m r => (proj r).foldl min m) a := by
  induction regions generalizing a with
  | nil => rfl
  | cons r rs ih =>
    simp only [List.foldl_cons]
    rw [show min a ((proj r).foldl min f64_max) = (proj r).foldl min a from by
      rw [← foldl_min_init_min, min_eq_left ha]]
    exact ih _ ((foldl_min_le_init _ _).trans ha)

theorem foldl_regions_max {α : Type} (proj : α → List ℚ)
    (regions : List α) (a : ℚ) (ha : f64_min ≤ a) :
    regions.foldl (fun m r => max m ((proj r).foldl max f64_min)) a
      = regions.foldl (fun m r => (proj r).foldl max m) a := by
  induction regions generalizing a with
  | nil => rfl
  | cons r rs ih =>
    simp only [List.foldl_cons]
    rw [show max a ((proj r).foldl max f64_min) = (proj r).foldl max a from by
      rw [← foldl_max_init_max, max_eq_left ha]]
    exact ih _ (ha.trans (foldl_max_ge_init _ _))

theorem foldl_min_is_min (l : List ℚ) (hne : l ≠ []) (hb : ∀ x ∈ l, x ≤ f64_max) :
    l.foldl min f64_max ∈ l ∧ ∀ x ∈ l, l.foldl min f64_max ≤ x := by
  refine ⟨?_, foldl_min_le_mem l f64_max⟩
  rcases foldl_min_mem l f64_max with h | h
  · obtain ⟨y, hy⟩ := List.exists_mem_of_ne_nil l hne
    have h1 := foldl_min_le_mem l f64_max y hy
    have h2 := hb y hy
    have h3 : y = l.foldl min f64_max := le_antisymm (by rw [h]; exact h2) h1
    rw [← h3]
    exact hy
  · exact h

theorem foldl_max_is_max (l : List ℚ) (hne : l ≠ []) (hb : ∀ x ∈ l, f64_min ≤ x) :
    l.foldl max f64_min ∈ l ∧ ∀ x ∈ l, x ≤ l.foldl max f64_min := by
  refine ⟨?_, foldl_max_ge_mem l f64_min⟩
  rcases foldl_max_mem l f64_min with h | h
  · obtain ⟨y, hy⟩ := List.exists_mem_of_ne_nil l hne
    have h1 := foldl_max_ge_mem l f64_min y hy
    have h2 := hb y hy
    have h3 : y = l.foldl max f64_min := le_antisymm h1 (by rw [h]; exact h2)
    rw [← h3]
    exact hy
  · exact h

theorem carb_split (regions : List (String × List (ℚ × ℚ))) :
    compute_all_regions_bounds regions
      = (regions.foldl (fun m r => min m (bounds_of (r.2.map Prod.fst)).1) f64_max,
         regions.foldl (fun m r => max m (bounds_of (r.2.map Prod.fst)).2) f64_min,
         regions.foldl (fun m r => min m (bounds_of (r.2.map Prod.snd)).1) f64_max,
         regions.foldl (fun m r => max m (bounds_of (r.2.map Prod.snd)).2) f64_min) := by
  have h : ∀ (rs : List (String × List (ℚ × ℚ))) (a b c d : ℚ),
      rs.foldl
          (fun acc region =>
            (min acc.1 (bounds_of (region.2.map Prod.fst)).1,
             max acc.2.1 (bounds_of (region.2.map Prod.fst)).2,
             min acc.2.2.1 (bounds_of (region.2.map Prod.snd)).1,
             max acc.2.2.2 (bounds_of (region.2.map Prod.snd)).2))
          (a, b, c, d)
        = (rs.foldl (fun m r => min m (bounds_of (r.2.map Prod.fst)).1) a,
           rs.foldl (fun m r => max m (bounds_of (r.2.map Prod.fst)).2) b,
           rs.foldl (fun m r => min m (bounds_of (r.2.map Prod.snd)).1) c,
           rs.foldl (fun m r => max m (bounds_of (r.2.map Prod.snd)).2) d) := by
    intro rs
    induction rs with
    | nil =>
      intro a b c d
      rfl
    | cons r rest ih =>
      intro a b c d
      simp only [List.foldl_cons]
      exact ih _ _ _ _
  exact h regions f64_max f64_min f64_max f64_min

theorem flatten_map_fst (regions : List (String × List (ℚ × ℚ))) :
    (all_points regions).map Prod.fst
      = (regions.map (fun r => r.2.map Prod.fst)).flatten := by
  unfold all_points
  rw [List.map_flatten, List.map_map]
  rfl

theorem flatten_map_snd (regions : List (String × List (ℚ × ℚ))) :
    (all_points regions).map Prod.snd
      = (regions.map (fun r => r.2.map Prod.snd)).flatten := by
  unfold all_points
  rw [List.map_flatten, List.map_map]
  rfl

theorem carb_min_x (regions : List (String × List (ℚ × ℚ))) :
    (compute_all_regions_bounds regions).1
      = ((all_points regions).map Prod.fst).foldl min f64_max := by
  rw [carb_split]
  show regions.foldl (fun m r => min m (bounds_of (r.2.map Prod.fst)).1) f64_max = _
  rw [show (fun (m : ℚ) (r : String × List (ℚ × ℚ)) => min m (bounds_of (r.2.map Prod.fst)).1)
      = (fun m r => min m ((r.2.map Prod.fst).foldl min f64_max)) from by
    funext m r
    rw [bounds_of_eq]]
  rw [foldl_regions_min _ _ _ (le_refl f64_max), flatten_map_fst, List.foldl_flatten,
    List.foldl_map]

theorem carb_max_x (regions : List (String × List (ℚ × ℚ))) :
    (compute_all_regions_bounds regions).2.1
      = ((all_points regions).map Prod.fst).foldl max f64_min := by
  rw [carb_split]
  show regions.foldl (fun m r => max m (bounds_of (r.2.map Prod.fst)).2) f64_min = _
  rw [show (fun (m : ℚ) (r : String × List (ℚ × ℚ)) => max m (bounds_of (r.2.map Prod.fst)).2)
      = (fun m r => max m ((r.2.map Prod.fst).foldl max f64_min)) from by
    funext m r
    rw [bounds_of_eq]]
  rw [foldl_regions_max _ _ _ (le_refl f64_min), flatten_map_fst, List.foldl_flatten,
    List.foldl_map]

theorem carb_min_y (regions : List (String × List (ℚ × ℚ))) :
    (compute_all_regions_bounds regions).2.2.1
      = ((all_points regions).map Prod.snd).foldl min f64_max := by
  rw [carb_split]
  show regions.foldl (fun m r => min m (bounds_of (r.2.map Prod.snd)).1) f64_max = _
  rw [show (fun (m : ℚ) (r : String × List (ℚ × ℚ)) => min m (bounds_of (r.2.map Prod.snd)).1)
      = (fun m r => min m ((r.2.map Prod.snd).foldl min f64_max)) from by
    funext m r
    rw [bounds_of_eq]]
  rw [foldl_regions_min _ _ _ (le_refl f64_max), flatten_map_snd, List.foldl_flatten,
    List.foldl_map]

theorem carb_max_y (regions : List (String × List (ℚ × ℚ))) :
    (compute_all_regions_bounds regions).2.2.2
      = ((all_points regions).map Prod.snd).foldl max f64_min := by
  rw [carb_split]
  show regions.foldl (fun m r => max m (bounds_of (r.2.map Prod.snd)).2) f64_min = _
  rw [show (fun (m : ℚ) (r : String × List (ℚ × ℚ)) => max m (bounds_of (r.2.map Prod.snd)).2)
      = (fun m r => max m ((r.2.map Prod.snd).foldl max f64_min)) from by
    funext m r
    rw [bounds_of_eq]]
  rw [foldl_regions_max _ _ _ (le_refl f64_min), flatten_map_snd, List.foldl_flatten,
    List.foldl_map]

/-- C5: for every non-empty region map (with coordinates inside the `f64`
range, so the sentinel seeds do not survive) whose union bounding box
`(mnx, mxx, mny, mxy)` has positive spans, `compute_all_regions_bounds`
returns the true union bounds across **all** regions, and
`normalize_regions` maps every point of every region with the single
uniform scale `r = min(effective_width / dx, effective_height / dy)` used
for both axes: `x' = left + slack_x/2 + (x - min_x)·r` and
`y' = top + slack_y/2 + (y - min_y)·r`, where `slack = effective - span·r`
is split equally on both sides. -/
theorem normalize_regions_uniform_scale
    (regions : List (String × List (ℚ × ℚ)))
    (width height top bottom left right mnx mxx mny mxy : ℚ)
    (hB : compute_all_regions_bounds regions = (mnx, mxx, mny, mxy))
    (hne : all_points regions ≠ [])
    (hb : ∀ p ∈ all_points regions, |p.1| ≤ f64_max ∧ |p.2| ≤ f64_max)
    (hdx : mnx < mxx) (hdy : mny < mxy) :
    (mnx ∈ (all_points regions).map Prod.fst ∧
      ∀ x ∈ (all_points regions).map Prod.fst, mnx ≤ x) ∧
    (mxx ∈ (all_points regions).map Prod.fst ∧
      ∀ x ∈ (all_points regions).map Prod.fst, x ≤ mxx) ∧
    (mny ∈ (all_points regions).map Prod.snd ∧
      ∀ y ∈ (all_points regions).map Prod.snd, mny ≤ y) ∧
    (mxy ∈ (all_points regions).map Prod.snd ∧
      ∀ y ∈ (all_points regions).map Prod.snd, y ≤ mxy) ∧
    normalize_regions regions (width, height) (top, bottom) (left, right)
      = regions.map (fun region =>
          (region.1,
           region.2.map (normalize_point left top
             (width - left - right - (mxx - mnx)
               * min ((width - left - right) / (mxx - mnx))
                   ((height - top - bottom) / (mxy - mny)))
             (height - top - bottom - (mxy - mny)
               * min ((width - left - right) / (mxx - mnx))
                   ((height - top - bottom) / (mxy - mny)))
             mnx mny
             (min ((width - left - right) / (mxx - mnx))
               ((height - top - bottom) / (mxy - mny)))))) := by
  have hxne : (all_points regions).map Prod.fst ≠ [] := by
    simpa using hne
  have hyne : (all_points regions).map Prod.snd ≠ [] := by
    simpa using hne
  have hxb : ∀ x ∈ (all_points regions).map Prod.fst, x ≤ f64_max := by
    intro x hx
    obtain ⟨p, hp, rfl⟩ := List.mem_map.mp hx
    exact (abs_le.mp (hb p hp).1).2
  have hxb2 : ∀ x ∈ (all_points regions).map Prod.fst, f64_min ≤ x := by
    intro x hx
    obtain ⟨p, hp, rfl⟩ := List.mem_map.mp hx
    exact (abs_le.mp (hb p hp).1).1
  have hyb : ∀ y ∈ (all_points regions).map Prod.snd, y ≤ f64_max := by
    intro y hy
    obtain ⟨p, hp, rfl⟩ := List.mem_map.mp hy
    exact (abs_le.mp (hb p hp).2).2
  have hyb2 : ∀ y ∈ (all_points regions).map Prod.snd, f64_min ≤ y := by
    intro y hy
    obtain ⟨p, hp, rfl⟩ := List.mem_map.mp hy
    exact (abs_le.mp (hb p hp).2).1
  have hmnx : mnx = ((all_points regions).map Prod.fst).foldl min f64_max := by
    rw [← carb_min_x, hB]
  have hmxx : mxx = ((all_points regions).map Prod.fst).foldl max f64_min := by
    rw [← carb_max_x, hB]
  have hmny : mny = ((all_points regions).map Prod.snd).foldl min f64_max := by
    rw [← carb_min_y, hB]
  have hmxy : mxy = ((all_points regions).map Prod.snd).foldl max f64_min := by
    rw [← carb_max_y, hB]
  refine ⟨?_, ?_, ?_, ?_, ?_⟩
  · rw [hmnx]
    exact foldl_min_is_min _ hxne hxb
  · rw [hmxx]
    exact foldl_max_is_max _ hxne hxb2
  · rw [hmny]
    exact foldl_min_is_min _ hyne hyb
  · rw [hmxy]
    exact foldl_max_is_max _ hyne hyb2
  · simp only [normalize_regions, hB]

/-- Closed instance of `normalize_regions_uniform_scale`: union bounding
box 200 × 100 on a 400 × 400 canvas with zero margins gives the uniform
scale 2 (limited by the wider dimension), no x-slack, and a y-slack of 200
split equally on both sides. -/
theorem normalize_regions_uniform_scale_witness :
    (all_points demo_regions ≠ []) ∧
    compute_all_regions_bounds demo_regions = (0, 200, 0, 100) ∧
    ((0 : ℚ) < 200) ∧ ((0 : ℚ) < 100) ∧
    normalize_regions demo_regions (400, 400) (0, 0) (0, 0)
      = demo_regions.map (fun region =>
          (region.1, region.2.map (normalize_point 0 0 0 200 0 0 2))) := by
  have hB : compute_all_regions_bounds demo_regions = (0, 200, 0, 100) := by
    norm_num [demo_regions, compute_all_regions_bounds, bounds_of, f64_max, f64_min,
      min_def, max_def]
  have hne : all_points demo_regions ≠ [] := by
    simp [demo_regions, all_points]
  have hb : ∀ p ∈ all_points demo_regions, |p.1| ≤ f64_max ∧ |p.2| ≤ f64_max := by
    intro p hp
    simp [demo_regions, all_points] at hp
    rcases hp with rfl | rfl | rfl <;> constructor <;> norm_num [f64_max]
  obtain ⟨h1, h2, h3, h4, hmap⟩ := normalize_regions_uniform_scale demo_regions
    400 400 0 0 0 0 0 200 0 100 hB hne hb (by norm_num) (by norm_num)
  refine ⟨hne, hB, by norm_num, by norm_num, ?_⟩
  rw [hmap]
  norm_num [min_def]

/-- C9: the x-component of the 2-to-1 oblique projection is
`x/2 - y/2`, strictly monotone in `x`; hence for two flat points
`(x1, y, 0)` and `(x2, y, 0)` with `x1 < x2`, projecting both and then
applying the region normalization map (whose uniform scale is positive)
preserves their strict x-ordering. -/
theorem projection_preserves_x_order
    (left_margin top_margin slack_x slack_y min_x min_y r : ℚ) (hr : 0 < r)
    (x1 x2 y : ℚ) (hx : x1 < x2) :
    (project_with_two_to_one_isometry x1 y 0).1
      < (project_with_two_to_one_isometry x2 y 0).1 ∧
    (normalize_point left_margin top_margin slack_x slack_y min_x min_y r
        ((project_with_two_to_one_isometry x1 y 0).1,
         (project_with_two_to_one_isometry x1 y 0).2.1)).1
      < (normalize_point left_margin top_margin slack_x slack_y min_x min_y r
        ((project_with_two_to_one_isometry x2 y 0).1,
         (project_with_two_to_one_isometry x2 y 0).2.1)).1 := by
  have hproj : ∀ x : ℚ,
      (project_with_two_to_one_isometry x y 0).1 = x / 2 - y / 2 := by
    intro x
    simp only [project_with_two_to_one_isometry, project]
    ring
  have h1 : (project_with_two_to_one_isometry x1 y 0).1
      < (project_with_two_to_one_isometry x2 y 0).1 := by
    rw [hproj, hproj]
    linarith
  refine ⟨h1, ?_⟩
  simp only [normalize_point]
  have h2 := mul_lt_mul_of_pos_right (sub_lt_sub_right h1 min_x) hr
  linarith

/-- Closed instance of `projection_preserves_x_order` at
`x1 = 0 < x2 = 3`, `y = 2`, scale `r = 1`. -/
theorem projection_preserves_x_order_witness :
    ((0 : ℚ) < 1) ∧ ((0 : ℚ) < 3) ∧
    ((project_with_two_to_one_isometry 0 2 0).1
        < (project_with_two_to_one_isometry 3 2 0).1 ∧
      (normalize_point 5 6 7 8 9 10 1
          ((project_with_two_to_one_isometry 0 2 0).1,
           (project_with_two_to_one_isometry 0 2 0).2.1)).1
        < (normalize_point 5 6 7 8 9 10 1
          ((project_with_two_to_one_isometry 3 2 0).1,
           (project_with_two_to_one_isometry 3 2 0).2.1)).1) :=
  ⟨by norm_num, by norm_num,
   projection_preserves_x_order 5 6 7 8 9 10 1 (by norm_num) 0 3 2 (by norm_num)⟩

-- Band arithmetic.

theorem ftrunc_intCast (n : ℤ) : ftrunc (n : ℚ) = n := by
  unfold ftrunc
  split_ifs <;> simp

theorem band_offset_zero (h n : ℤ) : band_offset h n 0 = 0 := by
  unfold band_offset
  norm_num [ftrunc]

theorem band_offset_last (h : ℤ) : band_offset h 61 61 = h := by
  unfold band_offset
  rw [show ((61 : ℕ) : ℚ) * ((h : ℚ) / (((61 : ℤ) : ℤ) : ℚ)) = (h : ℚ) from by
    push_cast
    field_simp]
  exact ftrunc_intCast h

theorem band_offset_mono (h : ℤ) (hh : 0 ≤ h) (i : ℕ) :
    band_offset h 61 i ≤ band_offset h 61 (i + 1) := by
  unfold band_offset
  have hq : (0 : ℚ) ≤ (h : ℚ) / ((61 : ℤ) : ℚ) := by positivity
  have h1 : (0 : ℚ) ≤ (i : ℚ) * ((h : ℚ) / ((61 : ℤ) : ℚ)) := by positivity
  have h2 : (0 : ℚ) ≤ ((i + 1 : ℕ) : ℚ) * ((h : ℚ) / ((61 : ℤ) : ℚ)) := by positivity
  rw [ftrunc, if_pos h1, ftrunc, if_pos h2]
  apply Int.floor_le_floor
  apply mul_le_mul_of_nonneg_right _ hq
  push_cast
  linarith

theorem list_range_map_sum (f : ℕ → ℤ) (n : ℕ) :
    ((List.range n).map f).sum = ∑ i ∈ Finset.range n, f i := by
  induction n with
  | zero => simp
  | succ m ih =>
    rw [List.range_succ, List.map_append, List.sum_append, Finset.sum_range_succ, ih]
    simp

theorem colorbar_draw_rects_eq (position size : ℤ × ℤ) (bounds : ℚ × ℚ)
    (precision : ℕ) :
    (Colorbar.new position size bounds precision).draw_rects
      = (List.range 61).map (fun i =>
          ((position.1, position.2 + band_offset size.2 61 i),
           (position.1 + size.1 + 1,
            position.2 + band_offset size.2 61 (i + 1) + 1))) := by
  unfold Colorbar.draw_rects Colorbar.new band_offset
  norm_num [show Int.toNat 61 = 61 from rfl]

theorem colorbar_heights_sum (position size : ℤ × ℤ) (bounds : ℚ × ℚ)
    (precision : ℕ) :
    (((Colorbar.new position size bounds precision).draw_rects.map
        (fun rect => rect.2.2 - rect.1.2)).sum) = size.2 + 61 := by
  rw [colorbar_draw_rects_eq, List.map_map]
  rw [show ((fun rect : (ℤ × ℤ) × (ℤ × ℤ) => rect.2.2 - rect.1.2) ∘ (fun i =>
        ((position.1, position.2 + band_offset size.2 61 i),
         (position.1 + size.1 + 1, position.2 + band_offset size.2 61 (i + 1) + 1))))
      = (fun i : ℕ => band_offset size.2 61 (i + 1) - band_offset size.2 61 i + 1) from by
    funext i
    simp only [Function.comp]
    ring]
  rw [list_range_map_sum, Finset.sum_add_distrib, Finset.sum_range_sub
    (fun i => band_offset size.2 61 i) 61]
  rw [band_offset_last, band_offset_zero]
  simp

theorem takeWhile_range_lt (L : ℤ) : ∀ (n s : ℕ),
    (List.range' s n).takeWhile (fun j : ℕ => decide ((j : ℤ) < L))
      = List.range' s (min n (L - s).toNat) := by
  intro n
  induction n with
  | zero =>
    intro s
    simp
  | succ m ih =>
    intro s
    rw [List.range'_succ, List.takeWhile_cons]
    by_cases hs : (s : ℤ) < L
    · rw [if_pos (by simpa using hs), ih (s + 1)]
      have h1 : (L - s).toNat = (L - ((s : ℤ) + 1)).toNat + 1 := by omega
      rw [h1, Nat.succ_min_succ, List.range'_succ]
      push_cast
      rfl
    · rw [if_neg (by simpa using hs)]
      have h1 : (L - s).toNat = 0 := by omega
      rw [h1]
      simp

theorem loadbar_drawn_indices_eq (lb : Loadbar) :
    lb.drawn_indices = List.range' 0 (min lb.n.toNat lb.last.toNat) := by
  unfold Loadbar.drawn_indices
  rw [List.range_eq_range', takeWhile_range_lt lb.last lb.n.toNat 0]
  norm_num

theorem lt_of_lt_ftrunc (z : ℤ) (q : ℚ) (h : z < ftrunc q) : (z : ℚ) < q := by
  unfold ftrunc at h
  split_ifs at h with h0
  · have h1 : (z + 1 : ℤ) ≤ ⌊q⌋ := h
    have h2 : ((z : ℚ) + 1) ≤ (⌊q⌋ : ℚ) := by exact_mod_cast h1
    have h3 := Int.floor_le q
    linarith
  · have h1 : (z + 1 : ℤ) ≤ ⌈q⌉ := h
    have h2 : ((z : ℚ) + 1) ≤ (⌈q⌉ : ℚ) := by exact_mod_cast h1
    have h3 := Int.ceil_lt_add_one q
    linarith

/-- C6 (counterexample): colorbar at position (0,0), size (10, 61)
(so `step = 1`).  The 61 emitted rectangle heights sum to 122, not to the
source height 61, and band 0 reaches down to row 2 while band 1 already
starts at row 1 — consecutive drawn rectangles overlap, because each
bottom edge is `trunc((i+1)·step) + 1`, one pixel past the next band's
top edge. -/
theorem colorbar_tiling_counterexample :
    ((((Colorbar.new (0, 0) (10, 61) (0, 1) 0).draw_rects.map
        (fun rect => rect.2.2 - rect.1.2)).sum) = 122 ∧ ((122 : ℤ) ≠ 61)) ∧
    ((Colorbar.new (0, 0) (10, 61) (0, 1) 0).draw_rects.getD 0 default).2.2 = 2 ∧
    ((Colorbar.new (0, 0) (10, 61) (0, 1) 0).draw_rects.getD 1 default).1.2 = 1 := by
  refine ⟨⟨?_, by norm_num⟩, ?_, ?_⟩
  · rw [colorbar_heights_sum]
    norm_num
  · rw [colorbar_draw_rects_eq]
    rw [show List.range 61 = 0 :: 1 :: List.range' 2 59 from by decide]
    simp only [List.map_cons, List.getD_cons_zero]
    norm_num [band_offset, ftrunc]
  · rw [colorbar_draw_rects_eq]
    rw [show List.range 61 = 0 :: 1 :: List.range' 2 59 from by decide]
    simp only [List.map_cons, List.getD_cons_succ, List.getD_cons_zero]
    norm_num [band_offset, ftrunc]

/-- C6 (amended): the colorbar emits exactly 61 rectangles, band `i`
spanning `[trunc(i·step), trunc((i+1)·step) + 1]`; the underlying band
intervals `[trunc(i·step), trunc((i+1)·step))` are ordered and tile the
height exactly (their lengths telescope to `height`, with no gaps and no
overlaps), but each DRAWN rectangle extends one pixel past its band, so
the drawn heights sum to `height + 61` and consecutive drawn rectangles
overlap.  The loadbar's 61 band widths likewise sum to the width, but the
loadbar emits only the first `min(61, max(trunc(61·value/max), 0))`
rectangles, not all 61. -/
theorem discretized_bar_tiling
    (position size : ℤ × ℤ) (bounds : ℚ × ℚ) (precision : ℕ)
    (lposition lsize : ℤ × ℤ) (lmax lvalue : ℚ) (x y : ℤ)
    (hh : 0 ≤ size.2) :
    (Colorbar.new position size bounds precision).draw_rects.length = 61 ∧
    (Colorbar.new position size bounds precision).draw_rects
      = (List.range 61).map (fun i =>
          ((position.1, position.2 + band_offset size.2 61 i),
           (position.1 + size.1 + 1,
            position.2 + band_offset size.2 61 (i + 1) + 1))) ∧
    (∀ i : ℕ, band_offset size.2 61 i ≤ band_offset size.2 61 (i + 1)) ∧
    (∑ i ∈ Finset.range 61,
        (band_offset size.2 61 (i + 1) - band_offset size.2 61 i)) = size.2 ∧
    (((Colorbar.new position size bounds precision).draw_rects.map
        (fun rect => rect.2.2 - rect.1.2)).sum) = size.2 + 61 ∧
    (∑ i ∈ Finset.range 61,
        (band_offset lsize.1 61 (i + 1) - band_offset lsize.1 61 i)) = lsize.1 ∧
    ((Loadbar.new lposition lsize lmax lvalue).draw_rects x y).length
      = min 61 (Loadbar.last (Loadbar.new lposition lsize lmax lvalue)).toNat := by
  refine ⟨?_, colorbar_draw_rects_eq position size bounds precision,
    band_offset_mono size.2 hh, ?_, colorbar_heights_sum position size bounds precision,
    ?_, ?_⟩
  · rw [colorbar_draw_rects_eq]
    simp
  · rw [Finset.sum_range_sub (fun i => band_offset size.2 61 i) 61,
      band_offset_last, band_offset_zero]
    ring
  · rw [Finset.sum_range_sub (fun i => band_offset lsize.1 61 i) 61,
      band_offset_last, band_offset_zero]
    ring
  · simp only [Loadbar.draw_rects, List.length_map]
    rw [loadbar_drawn_indices_eq, List.length_range']
    rfl

/-- Closed instance of `discretized_bar_tiling`: colorbar at (0,0), size
(10, 61), and a loadbar of width 61 with `value/max = 2.5/61`. -/
theorem discretized_bar_tiling_witness :
    ((0 : ℤ) ≤ 61) ∧
    ((Colorbar.new (0, 0) (10, 61) (0, 1) 0).draw_rects.length = 61 ∧
     (Colorbar.new (0, 0) (10, 61) (0, 1) 0).draw_rects
       = (List.range 61).map (fun i =>
           ((0, 0 + band_offset 61 61 i), (0 + 10 + 1, 0 + band_offset 61 61 (i + 1) + 1))) ∧
     (∀ i : ℕ, band_offset 61 61 i ≤ band_offset 61 61 (i + 1)) ∧
     (∑ i ∈ Finset.range 61, (band_offset 61 61 (i + 1) - band_offset 61 61 i)) = 61 ∧
     (((Colorbar.new (0, 0) (10, 61) (0, 1) 0).draw_rects.map
         (fun rect => rect.2.2 - rect.1.2)).sum) = 61 + 61 ∧
     (∑ i ∈ Finset.range 61, (band_offset 61 61 (i + 1) - band_offset 61 61 i)) = 61 ∧
     ((Loadbar.new (5, 5) (61, 10) 61 (5 / 2)).draw_rects 7 8).length
       = min 61 (Loadbar.last (Loadbar.new (5, 5) (61, 10) 61 (5 / 2))).toNat) :=
  ⟨by norm_num,
   discretized_bar_tiling (0, 0) (10, 61) (0, 1) 0 (5, 5) (61, 10) 61 (5 / 2) 7 8
     (by norm_num)⟩

/-- C7 (counterexample): loadbar with `N = 61`, `max = 61`,
`value = 2.5`.  Band 2 satisfies the claim's condition
`2/61 < 2.5/61` strictly, yet it is NOT drawn: the code draws band `i`
only when `i < trunc(61·value/max) = trunc(2.5) = 2`. -/
theorem loadbar_fraction_counterexample :
    ((2 : ℚ) / 61 < (5 / 2) / 61) ∧
    2 ∉ (Loadbar.new (0, 0) (61, 10) 61 (5 / 2)).drawn_indices := by
  constructor
  · norm_num
  · rw [loadbar_drawn_indices_eq]
    rw [show Loadbar.last (Loadbar.new (0, 0) (61, 10) 61 (5 / 2)) = 2 from by
      unfold Loadbar.last Loadbar.new
      norm_num [ftrunc]]
    simp [List.mem_range']

/-- C7 (amended): for every loadbar with `max > 0`, band `i` is drawn
exactly when `i < trunc(N·value/max)`; this implies the cumulative
fraction `i/N` is strictly below `value/max` for every drawn band (the
claim's "only while" direction), but the converse fails when
`N·value/max` is fractional (see the counterexample). -/
theorem loadbar_drawn_iff_below_trunc (position size : ℤ × ℤ) (mx v : ℚ)
    (hmx : 0 < mx) :
    (∀ i : ℕ, i ∈ (Loadbar.new position size mx v).drawn_indices
      ↔ (i < 61 ∧ (i : ℤ) < Loadbar.last (Loadbar.new position size mx v))) ∧
    (∀ i : ℕ, i ∈ (Loadbar.new position size mx v).drawn_indices →
      (i : ℚ) / 61 < v / mx) := by
  have hmem : ∀ i : ℕ, i ∈ (Loadbar.new position size mx v).drawn_indices
      ↔ (i < 61 ∧ (i : ℤ) < Loadbar.last (Loadbar.new position size mx v)) := by
    intro i
    rw [loadbar_drawn_indices_eq]
    simp only [List.mem_range',
      show (Loadbar.new position size mx v).n = (61 : ℤ) from rfl]
    constructor
    · rintro ⟨j, hj, rfl⟩
      omega
    · intro h
      exact ⟨i, by omega, by omega⟩
  refine ⟨hmem, ?_⟩
  intro i hi
  obtain ⟨h61, hlast⟩ := (hmem i).mp hi
  have h2 : ((i : ℤ) : ℚ) < ((61 : ℤ) : ℚ) * v / mx := lt_of_lt_ftrunc i _ hlast
  rw [div_lt_div_iff (by norm_num) hmx]
  rw [lt_div_iff hmx] at h2
  push_cast at h2 ⊢
  linarith

/-- Closed instance of `loadbar_drawn_iff_below_trunc` for the loadbar with
`max = 61`, `value = 2.5`. -/
theorem loadbar_drawn_iff_below_trunc_witness :
    ((0 : ℚ) < 61) ∧
    ((∀ i : ℕ, i ∈ (Loadbar.new (0, 0) (61, 10) 61 (5 / 2)).drawn_indices
      ↔ (i < 61 ∧ (i : ℤ) < Loadbar.last (Loadbar.new (0, 0) (61, 10) 61 (5 / 2)))) ∧
     (∀ i : ℕ, i ∈ (Loadbar.new (0, 0) (61, 10) 61 (5 / 2)).drawn_indices →
      (i : ℚ) / 61 < (5 / 2) / 61)) :=
  ⟨by norm_num, loadbar_drawn_iff_below_trunc (0, 0) (61, 10) 61 (5 / 2) (by norm_num)⟩
